import Mathlib

/-!
Verification of the article-collection notebook (`NewsAPI.ipynb`).

The definitions below are a shallow embedding of the Python source:

* `replaceAll` embeds Python's `str.replace(old, new)` on character lists
  (left-to-right scan, non-overlapping occurrences, every occurrence replaced).
  All patterns used by the notebook are nonempty, so the embedding guards the
  scan with `pat ≠ []`.
* `clean_text` embeds the chained `.replace` calls of `clean_text` (cell-22),
  expressed as a left fold over `repairTable`, the table of the seven
  pattern/replacement pairs in source order.
* `Tag`, `Entry`, `ApiResponse`, `CollectedArticle` model the JSON shapes the
  notebook reads and writes; `Entry.blocksBody` is the list
  `entry['blocks']['body']` projected to each block's `bodyTextSummary`.
* `processEntries` embeds the per-page entry loop of cell-26: non-`article`
  entries are skipped, an `article` entry with an empty block list raises
  (IndexError on `[0]`), modelled by the `Bool` flag `true`, which aborts the
  page with the accumulator as appended so far.
* `collectPages` / `all_articles` embed the paginated collection loop of
  cell-26, returning the accumulator together with the list of page numbers
  that were actually fetched.  A fetch returning `none` models a raised
  transport/parsing exception.
* `request_api_url` embeds the URL construction of `request_api` (cell-3);
  parameter values are modelled in already-stringified form.
-/

/-- Python `str.replace` on character lists, with explicit fuel so that the
recursion is structural (the fuel is always instantiated with the length of
the string being scanned). -/
def replaceAllF (pat rep : List Char) : Nat → List Char → List Char
  | 0, s => s
  | _ + 1, [] => []
  | fuel + 1, c :: cs =>
    if pat ≠ [] ∧ pat <+: (c :: cs) then
      rep ++ replaceAllF pat rep fuel (cs.drop (pat.length - 1))
    else
      c :: replaceAllF pat rep fuel cs

/-- Python `s.replace(pat, rep)` for a nonempty pattern `pat`: scan left to
right, replacing each (non-overlapping) occurrence of `pat` by `rep`. -/
def replaceAll (pat rep s : List Char) : List Char :=
  replaceAllF pat rep s.length s

/-- Simultaneous replacement of two patterns in one left-to-right scan, with
the first pattern tried first at each position.  Used to show that the two
single-pattern passes commute when the patterns cannot overlap. -/
def simulF (p1 r1 p2 r2 : List Char) : Nat → List Char → List Char
  | 0, s => s
  | _ + 1, [] => []
  | fuel + 1, c :: cs =>
    if p1 ≠ [] ∧ p1 <+: (c :: cs) then
      r1 ++ simulF p1 r1 p2 r2 fuel (cs.drop (p1.length - 1))
    else if p2 ≠ [] ∧ p2 <+: (c :: cs) then
      r2 ++ simulF p1 r1 p2 r2 fuel (cs.drop (p2.length - 1))
    else
      c :: simulF p1 r1 p2 r2 fuel cs

/-- Entry point of the two-pattern simultaneous replacement. -/
def simulPair (p1 r1 p2 r2 s : List Char) : List Char :=
  simulF p1 r1 p2 r2 s.length s

/-- Two patterns can never have overlapping occurrences in any string: no
nonempty suffix of one matches up with the other at any shift, in either
direction.  (At shift `k = 0` this also rules out one pattern being a prefix
of the other.) -/
def NoOverlap (p1 p2 : List Char) : Prop :=
  (∀ k, k < p1.length → ¬ (p1.drop k <+: p2) ∧ ¬ (p2 <+: p1.drop k)) ∧
  (∀ k, k < p2.length → ¬ (p2.drop k <+: p1) ∧ ¬ (p1 <+: p2.drop k))

instance (p1 p2 : List Char) : Decidable (NoOverlap p1 p2) := by
  unfold NoOverlap; exact inferInstance

/-- The seven pattern/replacement pairs of `clean_text` (cell-22), in the
order the source applies them: mis-decoded right single quote, left double
quote, replacement-character double-quote artifact, bullet, `é`, `ü`,
en-dash. -/
def repairTable : List (String × String) :=
  [("\u00e2\u20ac\u2122", "\u0027"),
   ("\u00e2\u20ac\u0153", "\""),
   ("\u00e2\u20ac\ufffd", "\""),
   ("\u00e2\u20ac\u00a2", "*"),
   ("\u00c3\u00a9", "e"),
   ("\u00c3\u00bc", "u"),
   ("\u00e2\u20ac\u201c", "-")]

/-- One `.replace` pass of the repair chain. -/
def cleanStep (acc : List Char) (pr : String × String) : List Char :=
  replaceAll pr.1.data pr.2.data acc

/-- The repair chain of `clean_text` on a character list: the seven
substitutions applied left to right in source order. -/
def clean_chars (s : List Char) : List Char :=
  repairTable.foldl cleanStep s

/-- `clean_text` (cell-22): the chained `.replace` calls on a string. -/
def clean_text (text : String) : String :=
  ⟨clean_chars text.data⟩

/-- A tag of an entry: its `type` and its `webTitle` (the contributor name
for contributor tags). -/
structure Tag where
  type : String
  webTitle : String
deriving DecidableEq

/-- An entry of the `/search` result list, projected to the fields the
notebook reads.  `blocksBody` is `entry['blocks']['body']` with each block
projected to its `bodyTextSummary` text. -/
structure Entry where
  type : String
  webTitle : String
  webPublicationDate : String
  tags : List Tag
  blocksBody : List String
deriving DecidableEq

/-- The object appended to `all_articles` for each accepted entry. -/
structure CollectedArticle where
  title : String
  date : String
  authors : List String
  text : String
deriving DecidableEq

/-- An HTTP response from `request_api`, already projected to the status code
and (when the status is 200 and the body parses) the `results` list. -/
structure ApiResponse where
  status_code : Nat
  results : List Entry
deriving DecidableEq

/-- The record built from one accepted entry in cell-26: cleaned title,
raw publication date, cleaned names of the contributor tags in order, and
cleaned text of the first body block. -/
def mkArticle (entry : Entry) (body : String) : CollectedArticle :=
  { title := clean_text entry.webTitle
    date := entry.webPublicationDate
    authors := (entry.tags.filter (fun t => t.type == "contributor")).map
      (fun t => clean_text t.webTitle)
    text := clean_text body }

/-- The per-page entry loop of cell-26.  Entries whose `type` is not
`article` are skipped.  An `article` entry with an empty block list raises an
IndexError on `['body'][0]`; the `Bool` result is `true` exactly in that
case, and the accumulator then holds everything appended before the fault. -/
def processEntries : List Entry → List CollectedArticle → List CollectedArticle × Bool
  | [], acc => (acc, false)
  | e :: rest, acc =>
    if e.type ≠ "article" then processEntries rest acc
    else
      match e.blocksBody with
      | [] => (acc, true)
      | b :: _ => processEntries rest (acc ++ [mkArticle e b])

/-- The paginated collection loop of cell-26, iterating over the given list
of page numbers.  `fetch p = none` models `request_api` (or JSON parsing)
raising, caught by the bare `except: break`.  A non-200 status breaks before
parsing.  A page whose entry processing raises breaks with the partial
accumulator.  A page with fewer results than `page_limit` is processed and
then ends the loop.  The second component lists the pages actually
fetched. -/
def collectPages (fetch : Nat → Option ApiResponse) (page_limit : Nat) :
    List Nat → List CollectedArticle → List CollectedArticle × List Nat
  | [], acc => (acc, [])
  | p :: rest, acc =>
    match fetch p with
    | none => (acc, [p])
    | some resp =>
      if resp.status_code ≠ 200 then (acc, [p])
      else
        match processEntries resp.results acc with
        | (acc2, true) => (acc2, [p])
        | (acc2, false) =>
          if resp.results.length < page_limit then (acc2, [p])
          else
            let r := collectPages fetch page_limit rest acc2
            (r.1, p :: r.2)

/-- The full run of cell-26: pages `1` to `max_limit`, empty initial
accumulator. -/
def all_articles (fetch : Nat → Option ApiResponse) (max_limit page_limit : Nat) :
    List CollectedArticle × List Nat :=
  collectPages fetch page_limit (List.range' 1 max_limit) []

/-- What one entry contributes to the output when no exception occurs:
nothing for a non-`article` entry, `mkArticle` on the first body block
otherwise. -/
def extractEntry (e : Entry) : Option CollectedArticle :=
  if e.type = "article" then (e.blocksBody.head?).map (fun b => mkArticle e b)
  else none

/-- An entry that cannot make the per-entry extraction raise: if it is an
`article` it has at least one body block. -/
def entryOk (e : Entry) : Prop :=
  e.type = "article" → e.blocksBody ≠ []

instance (e : Entry) : Decidable (entryOk e) := by
  unfold entryOk; exact inferInstance

/-- The results list a fetch produced (empty for a failed fetch). -/
def resultsOf (fetch : Nat → Option ApiResponse) (p : Nat) : List Entry :=
  match fetch p with
  | some r => r.results
  | none => []

/-- The articles contributed by pages `a, a+1, …, a+k-1`, assuming each page
was processed without fault. -/
def pagesOut (fetch : Nat → Option ApiResponse) : Nat → Nat → List CollectedArticle
  | _, 0 => []
  | a, k + 1 => (resultsOf fetch a).filterMap extractEntry ++ pagesOut fetch (a + 1) k

/-- Page `p` answers with status 200, exactly `pl` results, and only
fault-free entries. -/
def fullOk (fetch : Nat → Option ApiResponse) (pl p : Nat) : Prop :=
  ∃ rs, fetch p = some ⟨200, rs⟩ ∧ rs.length = pl ∧ ∀ e ∈ rs, entryOk e

/-- Python `key.replace('_', '-')` applied to a parameter name in
`request_api` (cell-3). -/
def hyphenate (key : String) : String :=
  ⟨replaceAll ['_'] ['-'] key.data⟩

/-- The URL built by `request_api` (cell-3).  Parameters are passed as
(name, stringified value) pairs in iteration order; each pair is prepended
to the query string, which starts from `api-key=<key>`. -/
def request_api_url (endpoint apiKey : String) (params : List (String × String)) : String :=
  "https://content.guardianapis.com/" ++ endpoint ++ "?" ++
    params.foldl (fun q kv => hyphenate kv.1 ++ "=" ++ kv.2 ++ "&" ++ q)
      ("api-key=" ++ apiKey)

/-- A well-formed `article` entry used to instantiate the theorems on a
concrete run; its title, text and contributor name carry mis-decoded
sequences from the repair table. -/
def testEntry : Entry :=
  { type := "article"
    webTitle := "Itâ€™s a title"
    webPublicationDate := "2021-03-11T10:00:00Z"
    tags := [⟨"contributor", "JÃ©an Doe"⟩, ⟨"keyword", "World news"⟩]
    blocksBody := ["Body â€“ text", "second block"] }

/-- An `article` entry whose block list is empty, so that extracting
`blocks.body[0]` raises. -/
def faultEntry : Entry :=
  { type := "article"
    webTitle := "broken"
    webPublicationDate := "2021-03-11T11:00:00Z"
    tags := []
    blocksBody := [] }

/-- A `liveblog` entry, which the entry filter must skip. -/
def liveEntry : Entry :=
  { type := "liveblog"
    webTitle := "live coverage"
    webPublicationDate := "2021-03-11T12:00:00Z"
    tags := [⟨"contributor", "Someone"⟩]
    blocksBody := ["live text"] }

/-- Mock upstream for the two-page scenario: 50 articles on page 1, 30 on
page 2. -/
def fetchTwoPages : Nat → Option ApiResponse := fun p =>
  if p = 1 then some ⟨200, List.replicate 50 testEntry⟩
  else if p = 2 then some ⟨200, List.replicate 30 testEntry⟩
  else some ⟨200, []⟩

/-- Mock upstream that answers one full page (page size 1) and then a 500
status. -/
def fetchThenError : Nat → Option ApiResponse := fun p =>
  if p = 1 then some ⟨200, [testEntry]⟩
  else some ⟨500, []⟩

/-- Mock upstream whose first page is short: a liveblog and one article. -/
def fetchShortPage : Nat → Option ApiResponse := fun p =>
  if p = 1 then some ⟨200, [liveEntry, testEntry]⟩
  else some ⟨200, []⟩

/-- Mock upstream whose first page has an article, then a faulting entry,
then another article. -/
def fetchFaultPage : Nat → Option ApiResponse := fun p =>
  if p = 1 then some ⟨200, [testEntry, faultEntry, testEntry]⟩
  else some ⟨200, []⟩

/-! ### Basic equations for `replaceAll` and `simulPair` -/

theorem replaceAllF_nil (pat rep : List Char) (n : Nat) :
    replaceAllF pat rep n [] = [] := by
  cases n <;> rfl

theorem replaceAllF_congr (pat rep : List Char) :
    ∀ n m s, s.length ≤ n → s.length ≤ m →
      replaceAllF pat rep n s = replaceAllF pat rep m s := by
  intro n
  induction n with
  | zero =>
    intro m s hs _
    have hsnil : s = [] := by
      cases s with
      | nil => rfl
      | cons c cs => simp at hs
    subst hsnil
    rw [replaceAllF_nil, replaceAllF_nil]
  | succ n ih =>
    intro m s hs hm
    cases s with
    | nil => rw [replaceAllF_nil, replaceAllF_nil]
    | cons c cs =>
      cases m with
      | zero => simp at hm
      | succ m =>
        have hcs : cs.length ≤ n := by
          simpa using hs
        have hcs' : cs.length ≤ m := by
          simpa using hm
        have hd : (cs.drop (pat.length - 1)).length ≤ cs.length := by
          rw [List.length_drop]; exact Nat.sub_le _ _
        simp only [replaceAllF]
        split
        · exact congrArg (rep ++ ·) (ih m _ (le_trans hd hcs) (le_trans hd hcs'))
        · exact congrArg (c :: ·) (ih m _ hcs hcs')

theorem replaceAll_nil (pat rep : List Char) : replaceAll pat rep [] = [] := rfl

theorem replaceAll_pos (pat rep s : List Char) (hne : pat ≠ []) (hp : pat <+: s) :
    replaceAll pat rep s = rep ++ replaceAll pat rep (s.drop pat.length) := by
  cases s with
  | nil => exact absurd (List.prefix_nil.mp hp) hne
  | cons c cs =>
    show replaceAllF pat rep (cs.length + 1) (c :: cs) = _
    simp only [replaceAllF]
    rw [if_pos ⟨hne, hp⟩]
    congr 1
    have hdrop : (c :: cs).drop pat.length = cs.drop (pat.length - 1) := by
      cases pat with
      | nil => exact absurd rfl hne
      | cons a pa => simp
    rw [hdrop]
    exact replaceAllF_congr pat rep cs.length _ _
      (by rw [List.length_drop]; exact Nat.sub_le _ _) (le_refl _)

theorem replaceAll_neg (pat rep : List Char) (c : Char) (cs : List Char)
    (h : ¬ (pat ≠ [] ∧ pat <+: (c :: cs))) :
    replaceAll pat rep (c :: cs) = c :: replaceAll pat rep cs := by
  show replaceAllF pat rep (cs.length + 1) (c :: cs) = _
  simp only [replaceAllF]
  rw [if_neg h]
  rfl

theorem replaceAll_neg' (pat rep : List Char) (c : Char) (cs : List Char)
    (h : ¬ pat <+: (c :: cs)) :
    replaceAll pat rep (c :: cs) = c :: replaceAll pat rep cs :=
  replaceAll_neg pat rep c cs (fun hc => h hc.2)

theorem simulF_nil (p1 r1 p2 r2 : List Char) (n : Nat) :
    simulF p1 r1 p2 r2 n [] = [] := by
  cases n <;> rfl

theorem simulF_congr (p1 r1 p2 r2 : List Char) :
    ∀ n m s, s.length ≤ n → s.length ≤ m →
      simulF p1 r1 p2 r2 n s = simulF p1 r1 p2 r2 m s := by
  intro n
  induction n with
  | zero =>
    intro m s hs _
    have hsnil : s = [] := by
      cases s with
      | nil => rfl
      | cons c cs => simp at hs
    subst hsnil
    rw [simulF_nil, simulF_nil]
  | succ n ih =>
    intro m s hs hm
    cases s with
    | nil => rw [simulF_nil, simulF_nil]
    | cons c cs =>
      cases m with
      | zero => simp at hm
      | succ m =>
        have hcs : cs.length ≤ n := by
          simpa using hs
        have hcs' : cs.length ≤ m := by
          simpa using hm
        have hd1 : (cs.drop (p1.length - 1)).length ≤ cs.length := by
          rw [List.length_drop]; exact Nat.sub_le _ _
        have hd2 : (cs.drop (p2.length - 1)).length ≤ cs.length := by
          rw [List.length_drop]; exact Nat.sub_le _ _
        simp only [simulF]
        split
        · exact congrArg (r1 ++ ·) (ih m _ (le_trans hd1 hcs) (le_trans hd1 hcs'))
        · split
          · exact congrArg (r2 ++ ·) (ih m _ (le_trans hd2 hcs) (le_trans hd2 hcs'))
          · exact congrArg (c :: ·) (ih m _ hcs hcs')

theorem simulPair_nil (p1 r1 p2 r2 : List Char) : simulPair p1 r1 p2 r2 [] = [] := rfl

theorem simulPair_pos1 (p1 r1 p2 r2 s : List Char) (hne : p1 ≠ []) (hp : p1 <+: s) :
    simulPair p1 r1 p2 r2 s = r1 ++ simulPair p1 r1 p2 r2 (s.drop p1.length) := by
  cases s with
  | nil => exact absurd (List.prefix_nil.mp hp) hne
  | cons c cs =>
    show simulF p1 r1 p2 r2 (cs.length + 1) (c :: cs) = _
    simp only [simulF]
    rw [if_pos ⟨hne, hp⟩]
    congr 1
    have hdrop : (c :: cs).drop p1.length = cs.drop (p1.length - 1) := by
      cases p1 with
      | nil => exact absurd rfl hne
      | cons a pa => simp
    rw [hdrop]
    exact simulF_congr p1 r1 p2 r2 cs.length _ _
      (by rw [List.length_drop]; exact Nat.sub_le _ _) (le_refl _)

theorem simulPair_pos2 (p1 r1 p2 r2 s : List Char)
    (h1 : ¬ (p1 ≠ [] ∧ p1 <+: s)) (hne : p2 ≠ []) (hp : p2 <+: s) :
    simulPair p1 r1 p2 r2 s = r2 ++ simulPair p1 r1 p2 r2 (s.drop p2.length) := by
  cases s with
  | nil => exact absurd (List.prefix_nil.mp hp) hne
  | cons c cs =>
    show simulF p1 r1 p2 r2 (cs.length + 1) (c :: cs) = _
    simp only [simulF]
    rw [if_neg h1, if_pos ⟨hne, hp⟩]
    congr 1
    have hdrop : (c :: cs).drop p2.length = cs.drop (p2.length - 1) := by
      cases p2 with
      | nil => exact absurd rfl hne
      | cons a pa => simp
    rw [hdrop]
    exact simulF_congr p1 r1 p2 r2 cs.length _ _
      (by rw [List.length_drop]; exact Nat.sub_le _ _) (le_refl _)

theorem simulPair_neg (p1 r1 p2 r2 : List Char) (c : Char) (cs : List Char)
    (h1 : ¬ (p1 ≠ [] ∧ p1 <+: (c :: cs))) (h2 : ¬ (p2 ≠ [] ∧ p2 <+: (c :: cs))) :
    simulPair p1 r1 p2 r2 (c :: cs) = c :: simulPair p1 r1 p2 r2 cs := by
  show simulF p1 r1 p2 r2 (cs.length + 1) (c :: cs) = _
  simp only [simulF]
  rw [if_neg h1, if_neg h2]
  rfl

/-! ### Occurrence lemmas for `replaceAll` -/

theorem infix_append_of_disjoint (pat u t : List Char) (hne : pat ≠ [])
    (hd : ∀ c ∈ u, c ∉ pat) (h : pat <:+: (u ++ t)) : pat <:+: t := by
  induction u with
  | nil => simpa using h
  | cons a u ih =>
    rw [List.cons_append] at h
    rcases List.infix_cons_iff.mp h with hpre | hinf
    · cases pat with
      | nil => exact absurd rfl hne
      | cons b pb =>
        rcases List.cons_prefix_cons.mp hpre with ⟨hb, _⟩
        exact absurd (List.mem_cons.mpr (Or.inl hb.symm))
          (hd a (List.mem_cons_self a u))
    · exact ih (fun c hc => hd c (List.mem_cons_of_mem a hc)) hinf

theorem prefix_of_prefix_replaceAll (pat rep : List Char) (hrep : rep ≠ []) :
    ∀ n s q, s.length ≤ n → q ≠ [] → (∀ a ∈ q, a ∉ rep) →
      q <+: replaceAll pat rep s → q <+: s := by
  intro n
  induction n with
  | zero =>
    intro s q hs hq _ hpre
    have hsnil : s = [] := by
      cases s with
      | nil => rfl
      | cons c cs => simp at hs
    subst hsnil
    rw [replaceAll_nil] at hpre
    exact absurd (List.prefix_nil.mp hpre) hq
  | succ n ih =>
    intro s q hs hq hdisj hpre
    cases s with
    | nil =>
      rw [replaceAll_nil] at hpre
      exact absurd (List.prefix_nil.mp hpre) hq
    | cons c cs =>
      by_cases hmatch : pat ≠ [] ∧ pat <+: (c :: cs)
      · rw [replaceAll_pos pat rep _ hmatch.1 hmatch.2] at hpre
        cases q with
        | nil => exact absurd rfl hq
        | cons b qb =>
          cases rep with
          | nil => exact absurd rfl hrep
          | cons r0 rr =>
            rw [List.cons_append] at hpre
            rcases List.cons_prefix_cons.mp hpre with ⟨hb, _⟩
            exact absurd (List.mem_cons.mpr (Or.inl hb))
              (hdisj b (List.mem_cons_self b qb))
      · rw [replaceAll_neg pat rep c cs hmatch] at hpre
        cases q with
        | nil => exact absurd rfl hq
        | cons b qb =>
          rcases List.cons_prefix_cons.mp hpre with ⟨hb, hq2⟩
          cases qb with
          | nil => exact List.cons_prefix_cons.mpr ⟨hb, List.nil_prefix⟩
          | cons b2 qb2 =>
            have hq3 : (b2 :: qb2) <+: cs :=
              ih cs (b2 :: qb2) (by simpa using hs) (by simp)
                (fun a ha => hdisj a (List.mem_cons_of_mem b ha)) hq2
            exact List.cons_prefix_cons.mpr ⟨hb, hq3⟩

theorem not_infix_replaceAll_self (pat rep : List Char) (hpat : pat ≠ []) (hrep : rep ≠ [])
    (hdisj : ∀ c ∈ rep, c ∉ pat) :
    ∀ n s, s.length ≤ n → ¬ pat <:+: replaceAll pat rep s := by
  intro n
  induction n with
  | zero =>
    intro s hs h
    have hsnil : s = [] := by
      cases s with
      | nil => rfl
      | cons c cs => simp at hs
    subst hsnil
    rw [replaceAll_nil] at h
    exact hpat (List.infix_nil.mp h)
  | succ n ih =>
    intro s hs h
    cases s with
    | nil =>
      rw [replaceAll_nil] at h
      exact hpat (List.infix_nil.mp h)
    | cons c cs =>
      simp only [List.length_cons] at hs
      by_cases hmatch : pat ≠ [] ∧ pat <+: (c :: cs)
      · rw [replaceAll_pos _ _ _ hmatch.1 hmatch.2] at h
        have h2 : pat <:+: replaceAll pat rep ((c :: cs).drop pat.length) :=
          infix_append_of_disjoint pat rep _ hpat hdisj h
        have hp1 : 1 ≤ pat.length := by
          cases pat with
          | nil => exact absurd rfl hpat
          | cons _ _ => simp
        have hlen : ((c :: cs).drop pat.length).length ≤ n := by
          rw [List.length_drop, List.length_cons]
          omega
        exact ih _ hlen h2
      · rw [replaceAll_neg _ _ _ _ hmatch] at h
        rcases List.infix_cons_iff.mp h with hpre | hinf
        · cases pat with
          | nil => exact hpat rfl
          | cons b pb =>
            rcases List.cons_prefix_cons.mp hpre with ⟨hb, hq2⟩
            cases pb with
            | nil =>
              exact hmatch ⟨hpat, List.cons_prefix_cons.mpr ⟨hb, List.nil_prefix⟩⟩
            | cons b2 pb2 =>
              have hq3 : (b2 :: pb2) <+: cs :=
                prefix_of_prefix_replaceAll _ rep hrep n cs _ (by omega) (by simp)
                  (fun a ha har => (hdisj a har) (List.mem_cons_of_mem b ha)) hq2
              exact hmatch ⟨hpat, List.cons_prefix_cons.mpr ⟨hb, hq3⟩⟩
        · exact ih cs (by omega) hinf

theorem not_infix_replaceAll_other (pat rep q : List Char) (hq : q ≠ []) (hrep : rep ≠ [])
    (hdisj : ∀ c ∈ rep, c ∉ q) :
    ∀ n s, s.length ≤ n → ¬ q <:+: s → ¬ q <:+: replaceAll pat rep s := by
  intro n
  induction n with
  | zero =>
    intro s hs _ h
    have hsnil : s = [] := by
      cases s with
      | nil => rfl
      | cons c cs => simp at hs
    subst hsnil
    rw [replaceAll_nil] at h
    exact hq (List.infix_nil.mp h)
  | succ n ih =>
    intro s hs hns h
    cases s with
    | nil =>
      rw [replaceAll_nil] at h
      exact hq (List.infix_nil.mp h)
    | cons c cs =>
      simp only [List.length_cons] at hs
      by_cases hmatch : pat ≠ [] ∧ pat <+: (c :: cs)
      · rw [replaceAll_pos _ _ _ hmatch.1 hmatch.2] at h
        have h2 : q <:+: replaceAll pat rep ((c :: cs).drop pat.length) :=
          infix_append_of_disjoint q rep _ hq hdisj h
        have hp1 : 1 ≤ pat.length := by
          cases pat with
          | nil => exact absurd rfl hmatch.1
          | cons _ _ => simp
        have hlen : ((c :: cs).drop pat.length).length ≤ n := by
          rw [List.length_drop, List.length_cons]
          omega
        have hn2 : ¬ q <:+: (c :: cs).drop pat.length := fun hc =>
          hns (List.IsInfix.trans hc (List.IsSuffix.isInfix (List.drop_suffix _ _)))
        exact ih _ hlen hn2 h2
      · rw [replaceAll_neg _ _ _ _ hmatch] at h
        rcases List.infix_cons_iff.mp h with hpre | hinf
        · cases q with
          | nil => exact hq rfl
          | cons b qb =>
            rcases List.cons_prefix_cons.mp hpre with ⟨hb, hq2⟩
            cases qb with
            | nil =>
              exact hns (List.IsPrefix.isInfix (List.cons_prefix_cons.mpr ⟨hb, List.nil_prefix⟩))
            | cons b2 qb2 =>
              have hq3 : (b2 :: qb2) <+: cs :=
                prefix_of_prefix_replaceAll _ rep hrep n cs _ (by omega) (by simp)
                  (fun a ha har => (hdisj a har) (List.mem_cons_of_mem b ha)) hq2
              exact hns (List.IsPrefix.isInfix (List.cons_prefix_cons.mpr ⟨hb, hq3⟩))
        · exact ih cs (by omega) (fun hc => hns (List.infix_cons hc)) hinf

theorem replaceAll_append_clean (pat rep : List Char) :
    ∀ u v, (∀ c ∈ u, c ∉ pat) → replaceAll pat rep (u ++ v) = u ++ replaceAll pat rep v := by
  intro u
  induction u with
  | nil => intro v _; simp
  | cons a u ih =>
    intro v hd
    have hneg : ¬ (pat ≠ [] ∧ pat <+: (a :: (u ++ v))) := by
      rintro ⟨hne, hpre⟩
      cases pat with
      | nil => exact hne rfl
      | cons b pb =>
        rcases List.cons_prefix_cons.mp hpre with ⟨hb, _⟩
        exact hd a (List.mem_cons_self a u) (List.mem_cons.mpr (Or.inl hb.symm))
    rw [List.cons_append, replaceAll_neg _ _ _ _ hneg,
      ih v (fun c hc => hd c (List.mem_cons_of_mem a hc)), List.cons_append]

theorem replaceAll_skip (pat rep : List Char) :
    ∀ m s, (∀ k, k < m → ¬ pat <+: s.drop k) →
      replaceAll pat rep s = s.take m ++ replaceAll pat rep (s.drop m) := by
  intro m
  induction m with
  | zero => intro s _; simp
  | succ m ih =>
    intro s hnp
    cases s with
    | nil => simp
    | cons c cs =>
      have h0 : ¬ pat <+: (c :: cs) := by simpa using hnp 0 (Nat.succ_pos m)
      rw [replaceAll_neg' _ _ _ _ h0]
      rw [ih cs (fun k hk => by simpa using hnp (k + 1) (Nat.succ_lt_succ hk))]
      simp

/-! ### Commutation of non-overlapping replacement passes -/

theorem prefix_compare {l1 l2 l3 : List Char} (h1 : l1 <+: l3) (h2 : l2 <+: l3) :
    l1 <+: l2 ∨ l2 <+: l1 :=
  List.prefix_or_prefix_of_prefix h1 h2

theorem noOverlap_symm (p1 p2 : List Char) (h : NoOverlap p1 p2) : NoOverlap p2 p1 :=
  ⟨h.2, h.1⟩

theorem noOverlap_not_both (p1 p2 s : List Char) (hp1 : p1 ≠ []) (hp2 : p2 ≠ [])
    (h : NoOverlap p1 p2) (h1 : p1 <+: s) (h2 : p2 <+: s) : False := by
  rcases prefix_compare h1 h2 with hc | hc
  · have h0 := (h.1 0 (List.length_pos.mpr hp1)).1
    rw [List.drop_zero] at h0
    exact h0 hc
  · have h0 := (h.1 0 (List.length_pos.mpr hp1)).2
    rw [List.drop_zero] at h0
    exact h0 hc

theorem noOverlap_no_inner (p1 p2 s : List Char) (h : NoOverlap p1 p2)
    (h1 : p1 <+: s) : ∀ k, k < p1.length → ¬ p2 <+: s.drop k := by
  intro k hk hp2
  obtain ⟨t, rfl⟩ := h1
  rw [List.drop_append_of_le_length (le_of_lt hk)] at hp2
  have hpref : p1.drop k <+: p1.drop k ++ t := List.prefix_append _ _
  rcases prefix_compare hp2 hpref with hc | hc
  · exact (h.1 k hk).2 hc
  · exact (h.1 k hk).1 hc

theorem replaceAll_pair_simul (p1 r1 p2 r2 : List Char)
    (hp1 : p1 ≠ []) (hp2 : p2 ≠ []) (hr1 : r1 ≠ []) (hr2 : r2 ≠ [])
    (hd1 : ∀ c ∈ r1, c ∉ p1 ∧ c ∉ p2)
    (hd2 : ∀ c ∈ r2, c ∉ p1 ∧ c ∉ p2)
    (hno : NoOverlap p1 p2) :
    ∀ n s, s.length ≤ n →
      replaceAll p2 r2 (replaceAll p1 r1 s) = simulPair p1 r1 p2 r2 s := by
  intro n
  induction n with
  | zero =>
    intro s hs
    have hsnil : s = [] := by
      cases s with
      | nil => rfl
      | cons c cs => simp at hs
    subst hsnil
    rw [replaceAll_nil, replaceAll_nil, simulPair_nil]
  | succ n ih =>
    intro s hs
    cases s with
    | nil => rw [replaceAll_nil, replaceAll_nil, simulPair_nil]
    | cons c cs =>
      simp only [List.length_cons] at hs
      have hl1 : 1 ≤ p1.length := List.length_pos.mpr hp1
      have hl2 : 1 ≤ p2.length := List.length_pos.mpr hp2
      by_cases hm1 : p1 <+: (c :: cs)
      · rw [replaceAll_pos p1 r1 _ hp1 hm1]
        rw [replaceAll_append_clean p2 r2 r1 _ (fun x hx => (hd1 x hx).2)]
        rw [simulPair_pos1 _ _ _ _ _ hp1 hm1]
        congr 1
        have hlen : ((c :: cs).drop p1.length).length ≤ n := by
          rw [List.length_drop, List.length_cons]
          omega
        exact ih _ hlen
      · by_cases hm2 : p2 <+: (c :: cs)
        · have hskip : ∀ k, k < p2.length → ¬ p1 <+: (c :: cs).drop k := by
            intro k hk
            cases Nat.eq_zero_or_pos k with
            | inl h0 =>
              subst h0
              rw [List.drop_zero]
              exact hm1
            | inr hkpos =>
              exact noOverlap_no_inner p2 p1 _ (noOverlap_symm p1 p2 hno) hm2 k hk
          rw [replaceAll_skip p1 r1 p2.length _ hskip]
          rw [(List.prefix_iff_eq_take.mp hm2).symm]
          rw [replaceAll_pos p2 r2 _ hp2 (List.prefix_append _ _)]
          rw [List.drop_left]
          rw [simulPair_pos2 _ _ _ _ _ (fun hcon => hm1 hcon.2) hp2 hm2]
          congr 1
          have hlen : ((c :: cs).drop p2.length).length ≤ n := by
            rw [List.length_drop, List.length_cons]
            omega
          exact ih _ hlen
        · rw [replaceAll_neg' p1 r1 _ _ hm1]
          have hneg2 : ¬ p2 <+: (c :: replaceAll p1 r1 cs) := by
            intro hpre
            cases p2 with
            | nil => exact hp2 rfl
            | cons b qb =>
              rcases List.cons_prefix_cons.mp hpre with ⟨hb, hq2⟩
              cases qb with
              | nil => exact hm2 (List.cons_prefix_cons.mpr ⟨hb, List.nil_prefix⟩)
              | cons b2 qb2 =>
                have hq3 : (b2 :: qb2) <+: cs :=
                  prefix_of_prefix_replaceAll p1 r1 hr1 cs.length cs _ (le_refl _) (by simp)
                    (fun a ha har => ((hd1 a har).2) (List.mem_cons_of_mem b ha)) hq2
                exact hm2 (List.cons_prefix_cons.mpr ⟨hb, hq3⟩)
          rw [replaceAll_neg' p2 r2 _ _ hneg2]
          rw [simulPair_neg _ _ _ _ _ _ (fun hcon => hm1 hcon.2) (fun hcon => hm2 hcon.2)]
          congr 1
          exact ih cs (by omega)

theorem simulPair_symm (p1 r1 p2 r2 : List Char) (hp1 : p1 ≠ []) (hp2 : p2 ≠ [])
    (hno : NoOverlap p1 p2) :
    ∀ n s, s.length ≤ n → simulPair p1 r1 p2 r2 s = simulPair p2 r2 p1 r1 s := by
  intro n
  induction n with
  | zero =>
    intro s hs
    have hsnil : s = [] := by
      cases s with
      | nil => rfl
      | cons c cs => simp at hs
    subst hsnil
    rw [simulPair_nil, simulPair_nil]
  | succ n ih =>
    intro s hs
    cases s with
    | nil => rw [simulPair_nil, simulPair_nil]
    | cons c cs =>
      simp only [List.length_cons] at hs
      have hl1 : 1 ≤ p1.length := List.length_pos.mpr hp1
      have hl2 : 1 ≤ p2.length := List.length_pos.mpr hp2
      by_cases hm1 : p1 <+: (c :: cs)
      · have hm2 : ¬ p2 <+: (c :: cs) := fun hc =>
          noOverlap_not_both p1 p2 _ hp1 hp2 hno hm1 hc
        rw [simulPair_pos1 _ _ _ _ _ hp1 hm1,
          simulPair_pos2 _ _ _ _ _ (fun hcon => hm2 hcon.2) hp1 hm1]
        congr 1
        have hlen : ((c :: cs).drop p1.length).length ≤ n := by
          rw [List.length_drop, List.length_cons]
          omega
        exact ih _ hlen
      · by_cases hm2 : p2 <+: (c :: cs)
        · rw [simulPair_pos2 _ _ _ _ _ (fun hcon => hm1 hcon.2) hp2 hm2,
            simulPair_pos1 _ _ _ _ _ hp2 hm2]
          congr 1
          have hlen : ((c :: cs).drop p2.length).length ≤ n := by
            rw [List.length_drop, List.length_cons]
            omega
          exact ih _ hlen
        · rw [simulPair_neg _ _ _ _ _ _ (fun hcon => hm1 hcon.2) (fun hcon => hm2 hcon.2),
            simulPair_neg _ _ _ _ _ _ (fun hcon => hm2 hcon.2) (fun hcon => hm1 hcon.2)]
          congr 1
          exact ih cs (by omega)

theorem replaceAll_comm (p1 r1 p2 r2 : List Char)
    (hp1 : p1 ≠ []) (hp2 : p2 ≠ []) (hr1 : r1 ≠ []) (hr2 : r2 ≠ [])
    (hd1 : ∀ c ∈ r1, c ∉ p1 ∧ c ∉ p2)
    (hd2 : ∀ c ∈ r2, c ∉ p1 ∧ c ∉ p2)
    (hno : NoOverlap p1 p2) (s : List Char) :
    replaceAll p2 r2 (replaceAll p1 r1 s) = replaceAll p1 r1 (replaceAll p2 r2 s) := by
  rw [replaceAll_pair_simul p1 r1 p2 r2 hp1 hp2 hr1 hr2 hd1 hd2 hno s.length s (le_refl _)]
  rw [replaceAll_pair_simul p2 r2 p1 r1 hp2 hp1 hr2 hr1
    (fun c hc => ⟨(hd2 c hc).2, (hd2 c hc).1⟩)
    (fun c hc => ⟨(hd1 c hc).2, (hd1 c hc).1⟩)
    (noOverlap_symm p1 p2 hno) s.length s (le_refl _)]
  exact simulPair_symm p1 r1 p2 r2 hp1 hp2 hno s.length s (le_refl _)

theorem cleanStep_comm (a b : String × String)
    (h1 : a.1.data ≠ []) (h2 : b.1.data ≠ []) (h3 : a.2.data ≠ []) (h4 : b.2.data ≠ [])
    (h5 : ∀ c ∈ a.2.data, c ∉ a.1.data ∧ c ∉ b.1.data)
    (h6 : ∀ c ∈ b.2.data, c ∉ a.1.data ∧ c ∉ b.1.data)
    (h7 : NoOverlap a.1.data b.1.data) (z : List Char) :
    cleanStep (cleanStep z a) b = cleanStep (cleanStep z b) a :=
  replaceAll_comm a.1.data a.2.data b.1.data b.2.data h1 h2 h3 h4 h5 h6 h7 z

/-! ### `clean_chars` leaves no pattern of the repair table -/

theorem avoid_self_str (pr : String × String) (s : List Char)
    (h1 : pr.1.data ≠ []) (h2 : pr.2.data ≠ []) (h3 : ∀ c ∈ pr.2.data, c ∉ pr.1.data) :
    ¬ pr.1.data <:+: cleanStep s pr :=
  not_infix_replaceAll_self pr.1.data pr.2.data h1 h2 h3 s.length s (le_refl _)

theorem foldl_preserves (q : List Char) (hq : q ≠ []) :
    ∀ (tbl : List (String × String)),
      (∀ pr ∈ tbl, pr.2.data ≠ [] ∧ ∀ c ∈ pr.2.data, c ∉ q) →
      ∀ s, ¬ q <:+: s → ¬ q <:+: tbl.foldl cleanStep s := by
  intro tbl
  induction tbl with
  | nil => intro _ s hs; simpa using hs
  | cons a tbl ih =>
    intro h s hs
    have ha := h a (List.mem_cons_self a tbl)
    have hstep : ¬ q <:+: cleanStep s a :=
      not_infix_replaceAll_other a.1.data a.2.data q hq ha.1 ha.2 s.length s (le_refl _) hs
    exact ih (fun pr hpr => h pr (List.mem_cons_of_mem a hpr)) (cleanStep s a) hstep

theorem table_split_avoids (x : String × String) (post : List (String × String))
    (hx1 : x.1.data ≠ []) (hx2 : x.2.data ≠ []) (hx3 : ∀ c ∈ x.2.data, c ∉ x.1.data)
    (hpost : ∀ pr ∈ post, pr.2.data ≠ [] ∧ ∀ c ∈ pr.2.data, c ∉ x.1.data)
    (pre : List (String × String)) (s : List Char) :
    ¬ x.1.data <:+: (pre ++ x :: post).foldl cleanStep s := by
  rw [List.foldl_append, List.foldl_cons]
  exact foldl_preserves x.1.data hx1 post hpost _
    (avoid_self_str x (pre.foldl cleanStep s) hx1 hx2 hx3)

theorem clean_chars_avoids (pr : String × String) (hpr : pr ∈ repairTable) (s : List Char) :
    ¬ pr.1.data <:+: clean_chars s := by
  simp only [repairTable, List.mem_cons, List.not_mem_nil, or_false] at hpr
  rcases hpr with h | h | h | h | h | h | h
  all_goals subst h
  · exact table_split_avoids ("\u00e2\u20ac\u2122", "\u0027") (repairTable.drop 1)
      (by decide) (by decide) (by decide) (by decide) (repairTable.take 0) s
  · exact table_split_avoids ("\u00e2\u20ac\u0153", "\"") (repairTable.drop 2)
      (by decide) (by decide) (by decide) (by decide) (repairTable.take 1) s
  · exact table_split_avoids ("\u00e2\u20ac\ufffd", "\"") (repairTable.drop 3)
      (by decide) (by decide) (by decide) (by decide) (repairTable.take 2) s
  · exact table_split_avoids ("\u00e2\u20ac\u00a2", "*") (repairTable.drop 4)
      (by decide) (by decide) (by decide) (by decide) (repairTable.take 3) s
  · exact table_split_avoids ("\u00c3\u00a9", "e") (repairTable.drop 5)
      (by decide) (by decide) (by decide) (by decide) (repairTable.take 4) s
  · exact table_split_avoids ("\u00c3\u00bc", "u") (repairTable.drop 6)
      (by decide) (by decide) (by decide) (by decide) (repairTable.take 5) s
  · exact table_split_avoids ("\u00e2\u20ac\u201c", "-") (repairTable.drop 7)
      (by decide) (by decide) (by decide) (by decide) (repairTable.take 6) s

/-! ### Equations and invariants of the entry loop -/

theorem processEntries_skip (e : Entry) (rest : List Entry) (acc : List CollectedArticle)
    (h : e.type ≠ "article") : processEntries (e :: rest) acc = processEntries rest acc := by
  simp [processEntries, h]

theorem processEntries_fault (e : Entry) (rest : List Entry) (acc : List CollectedArticle)
    (ht : e.type = "article") (hb : e.blocksBody = []) :
    processEntries (e :: rest) acc = (acc, true) := by
  simp [processEntries, ht, hb]

theorem processEntries_step (e : Entry) (rest : List Entry) (acc : List CollectedArticle)
    (b : String) (bs : List String) (ht : e.type = "article") (hb : e.blocksBody = b :: bs) :
    processEntries (e :: rest) acc = processEntries rest (acc ++ [mkArticle e b]) := by
  simp [processEntries, ht, hb]

theorem extractEntry_skip (e : Entry) (h : e.type ≠ "article") : extractEntry e = none := by
  simp [extractEntry, h]

theorem extractEntry_step (e : Entry) (b : String) (bs : List String)
    (ht : e.type = "article") (hb : e.blocksBody = b :: bs) :
    extractEntry e = some (mkArticle e b) := by
  simp [extractEntry, ht, hb]

theorem processEntries_ok :
    ∀ (l : List Entry) (acc : List CollectedArticle), (∀ e ∈ l, entryOk e) →
      processEntries l acc = (acc ++ l.filterMap extractEntry, false) := by
  intro l
  induction l with
  | nil => intro acc _; simp [processEntries]
  | cons e rest ih =>
    intro acc h
    by_cases ht : e.type = "article"
    · have hbody : e.blocksBody ≠ [] := h e (List.mem_cons_self e rest) ht
      cases hb : e.blocksBody with
      | nil => exact absurd hb hbody
      | cons b bs =>
        rw [processEntries_step e rest acc b bs ht hb,
          ih _ (fun x hx => h x (List.mem_cons_of_mem e hx)),
          List.filterMap_cons, extractEntry_step e b bs ht hb]
        simp
    · rw [processEntries_skip e rest acc ht,
        ih _ (fun x hx => h x (List.mem_cons_of_mem e hx)),
        List.filterMap_cons, extractEntry_skip e ht]

theorem processEntries_remove (e : Entry) (post : List Entry) (he : e.type ≠ "article") :
    ∀ (pre : List Entry) (acc : List CollectedArticle),
      processEntries (pre ++ e :: post) acc = processEntries (pre ++ post) acc := by
  intro pre
  induction pre with
  | nil =>
    intro acc
    simpa using processEntries_skip e post acc he
  | cons x pre ih =>
    intro acc
    simp only [List.cons_append]
    by_cases hx : x.type = "article"
    · cases hb : x.blocksBody with
      | nil => rw [processEntries_fault x _ acc hx hb, processEntries_fault x _ acc hx hb]
      | cons b bs =>
        rw [processEntries_step x _ acc b bs hx hb, processEntries_step x _ acc b bs hx hb]
        exact ih _
    · rw [processEntries_skip x _ acc hx, processEntries_skip x _ acc hx]
      exact ih _

theorem processEntries_fault_mid (e : Entry) (post : List Entry)
    (ht : e.type = "article") (hb : e.blocksBody = []) :
    ∀ (pre : List Entry) (acc : List CollectedArticle), (∀ x ∈ pre, entryOk x) →
      processEntries (pre ++ e :: post) acc = (acc ++ pre.filterMap extractEntry, true) := by
  intro pre
  induction pre with
  | nil =>
    intro acc _
    simpa using processEntries_fault e post acc ht hb
  | cons x pre ih =>
    intro acc h
    simp only [List.cons_append]
    by_cases hx : x.type = "article"
    · have hbody : x.blocksBody ≠ [] := h x (List.mem_cons_self x pre) hx
      cases hxb : x.blocksBody with
      | nil => exact absurd hxb hbody
      | cons b bs =>
        rw [processEntries_step x _ acc b bs hx hxb,
          ih _ (fun y hy => h y (List.mem_cons_of_mem x hy)),
          List.filterMap_cons, extractEntry_step x b bs hx hxb]
        simp
    · rw [processEntries_skip x _ acc hx,
        ih _ (fun y hy => h y (List.mem_cons_of_mem x hy)),
        List.filterMap_cons, extractEntry_skip x hx]

theorem mem_processEntries :
    ∀ (l : List Entry) (acc : List CollectedArticle) (a : CollectedArticle),
      a ∈ (processEntries l acc).1 →
      a ∈ acc ∨ ∃ e b, e.type = "article" ∧ e.blocksBody.head? = some b ∧ a = mkArticle e b := by
  intro l
  induction l with
  | nil => intro acc a ha; exact Or.inl ha
  | cons e rest ih =>
    intro acc a ha
    by_cases ht : e.type = "article"
    · cases hb : e.blocksBody with
      | nil =>
        rw [processEntries_fault e rest acc ht hb] at ha
        exact Or.inl ha
      | cons b bs =>
        rw [processEntries_step e rest acc b bs ht hb] at ha
        rcases ih _ a ha with hmem | hex
        · rcases List.mem_append.mp hmem with hmem2 | hmem2
          · exact Or.inl hmem2
          · refine Or.inr ⟨e, b, ht, ?_, ?_⟩
            · rw [hb]; rfl
            · simpa using hmem2
        · exact Or.inr hex
    · rw [processEntries_skip e rest acc ht] at ha
      exact ih _ a ha

theorem filterMap_extract_length :
    ∀ rs : List Entry, (∀ e ∈ rs, e.type = "article" ∧ e.blocksBody ≠ []) →
      (rs.filterMap extractEntry).length = rs.length := by
  intro rs
  induction rs with
  | nil => intro _; rfl
  | cons e rest ih =>
    intro h
    obtain ⟨ht, hbody⟩ := h e (List.mem_cons_self e rest)
    cases hb : e.blocksBody with
    | nil => exact absurd hb hbody
    | cons b bs =>
      rw [List.filterMap_cons, extractEntry_step e b bs ht hb]
      simp [ih (fun x hx => h x (List.mem_cons_of_mem e hx))]

/-! ### Equations and invariants of the page loop -/

theorem collect_none (f : Nat → Option ApiResponse) (pl p : Nat) (rest : List Nat)
    (acc : List CollectedArticle) (hf : f p = none) :
    collectPages f pl (p :: rest) acc = (acc, [p]) := by
  simp [collectPages, hf]

theorem collect_badstatus (f : Nat → Option ApiResponse) (pl p : Nat) (rest : List Nat)
    (acc : List CollectedArticle) (r : ApiResponse)
    (hf : f p = some r) (hst : r.status_code ≠ 200) :
    collectPages f pl (p :: rest) acc = (acc, [p]) := by
  simp [collectPages, hf, hst]

theorem collect_fault (f : Nat → Option ApiResponse) (pl p : Nat) (rest : List Nat)
    (acc acc2 : List CollectedArticle) (r : ApiResponse)
    (hf : f p = some r) (hst : r.status_code = 200)
    (hproc : processEntries r.results acc = (acc2, true)) :
    collectPages f pl (p :: rest) acc = (acc2, [p]) := by
  simp [collectPages, hf, hst, hproc]

theorem collect_short (f : Nat → Option ApiResponse) (pl p : Nat) (rest : List Nat)
    (acc acc2 : List CollectedArticle) (r : ApiResponse)
    (hf : f p = some r) (hst : r.status_code = 200)
    (hproc : processEntries r.results acc = (acc2, false))
    (hlen : r.results.length < pl) :
    collectPages f pl (p :: rest) acc = (acc2, [p]) := by
  simp [collectPages, hf, hst, hproc, hlen]

theorem collect_cont (f : Nat → Option ApiResponse) (pl p : Nat) (rest : List Nat)
    (acc acc2 : List CollectedArticle) (r : ApiResponse)
    (hf : f p = some r) (hst : r.status_code = 200)
    (hproc : processEntries r.results acc = (acc2, false))
    (hlen : ¬ r.results.length < pl) :
    collectPages f pl (p :: rest) acc =
      ((collectPages f pl rest acc2).1, p :: (collectPages f pl rest acc2).2) := by
  simp [collectPages, hf, hst, hproc, hlen]

theorem mem_collectPages :
    ∀ (pages : List Nat) (f : Nat → Option ApiResponse) (pl : Nat)
      (acc : List CollectedArticle) (a : CollectedArticle),
      a ∈ (collectPages f pl pages acc).1 →
      a ∈ acc ∨ ∃ e b, e.type = "article" ∧ e.blocksBody.head? = some b ∧ a = mkArticle e b := by
  intro pages
  induction pages with
  | nil => intro f pl acc a ha; exact Or.inl ha
  | cons p rest ih =>
    intro f pl acc a ha
    cases hf : f p with
    | none =>
      rw [collect_none f pl p rest acc hf] at ha
      exact Or.inl ha
    | some r =>
      by_cases hst : r.status_code = 200
      · rcases hproc : processEntries r.results acc with ⟨acc2, flag⟩
        cases flag with
        | true =>
          rw [collect_fault f pl p rest acc acc2 r hf hst hproc] at ha
          have ha2 : a ∈ (processEntries r.results acc).1 := by rw [hproc]; exact ha
          exact mem_processEntries r.results acc a ha2
        | false =>
          by_cases hlen : r.results.length < pl
          · rw [collect_short f pl p rest acc acc2 r hf hst hproc hlen] at ha
            have ha2 : a ∈ (processEntries r.results acc).1 := by rw [hproc]; exact ha
            exact mem_processEntries r.results acc a ha2
          · rw [collect_cont f pl p rest acc acc2 r hf hst hproc hlen] at ha
            rcases ih f pl acc2 a ha with h2 | h2
            · have ha2 : a ∈ (processEntries r.results acc).1 := by rw [hproc]; exact h2
              exact mem_processEntries r.results acc a ha2
            · exact Or.inr h2
      · rw [collect_badstatus f pl p rest acc r hf hst] at ha
        exact Or.inl ha

theorem resultsOf_eq (f : Nat → Option ApiResponse) (p : Nat) (r : ApiResponse)
    (h : f p = some r) : resultsOf f p = r.results := by
  simp [resultsOf, h]

theorem collect_full_seg (f : Nat → Option ApiResponse) (pl : Nat) :
    ∀ (k a : Nat) (acc : List CollectedArticle) (l2 : List Nat),
      (∀ p, a ≤ p → p < a + k → fullOk f pl p) →
      collectPages f pl (List.range' a k ++ l2) acc =
        ((collectPages f pl l2 (acc ++ pagesOut f a k)).1,
          List.range' a k ++ (collectPages f pl l2 (acc ++ pagesOut f a k)).2) := by
  intro k
  induction k with
  | zero =>
    intro a acc l2 _
    simp [pagesOut]
  | succ k ih =>
    intro a acc l2 h
    obtain ⟨rs, hf, hlen, hok⟩ := h a (le_refl a) (by omega)
    have hproc : processEntries rs acc = (acc ++ rs.filterMap extractEntry, false) :=
      processEntries_ok rs acc hok
    have hnl : ¬ rs.length < pl := by omega
    rw [List.range'_succ, List.cons_append]
    rw [collect_cont f pl a _ acc _ ⟨200, rs⟩ hf rfl hproc hnl]
    rw [ih (a + 1) (acc ++ rs.filterMap extractEntry) l2 (fun p h1 h2 => h p (by omega) (by omega))]
    have hpo : pagesOut f a (k + 1) = rs.filterMap extractEntry ++ pagesOut f (a + 1) k := by
      simp [pagesOut, resultsOf, hf]
    rw [hpo]
    simp [List.append_assoc]

theorem collect_short_stop (f : Nat → Option ApiResponse) (pl p : Nat) (rest : List Nat)
    (acc : List CollectedArticle) (rs : List Entry)
    (hf : f p = some ⟨200, rs⟩) (hok : ∀ e ∈ rs, entryOk e) (hlen : rs.length < pl) :
    collectPages f pl (p :: rest) acc = (acc ++ rs.filterMap extractEntry, [p]) :=
  collect_short f pl p rest acc _ ⟨200, rs⟩ hf rfl (processEntries_ok rs acc hok) hlen

/-! ### Query string lemmas for `request_api_url` -/

theorem query_suffix :
    ∀ (params : List (String × String)) (q0 : String),
      q0.data <:+
        (params.foldl (fun q kv => hyphenate kv.1 ++ "=" ++ kv.2 ++ "&" ++ q) q0).data := by
  intro params
  induction params with
  | nil => intro q0; exact List.suffix_refl _
  | cons kv params ih =>
    intro q0
    rw [List.foldl_cons]
    refine List.IsSuffix.trans ?_ (ih (hyphenate kv.1 ++ "=" ++ kv.2 ++ "&" ++ q0))
    rw [String.data_append]
    exact List.suffix_append _ _

theorem query_contains :
    ∀ (params : List (String × String)) (kv : String × String), kv ∈ params →
      ∀ (q0 : String),
        (hyphenate kv.1 ++ "=" ++ kv.2 ++ "&").data <:+:
          (params.foldl (fun q kv => hyphenate kv.1 ++ "=" ++ kv.2 ++ "&" ++ q) q0).data := by
  intro params
  induction params with
  | nil => intro kv h q0; exact absurd h (List.not_mem_nil kv)
  | cons kv0 params ih =>
    intro kv hmem q0
    rw [List.foldl_cons]
    rcases List.mem_cons.mp hmem with heq | hmem2
    · subst heq
      refine List.IsInfix.trans ?_
        (List.IsSuffix.isInfix (query_suffix params (hyphenate kv.1 ++ "=" ++ kv.2 ++ "&" ++ q0)))
      rw [String.data_append]
      exact List.IsPrefix.isInfix (List.prefix_append _ _)
    · exact ih kv hmem2 _

theorem query_infix_url (endpoint apiKey : String) (params : List (String × String))
    (x : List Char)
    (h : x <:+:
      (params.foldl (fun q kv => hyphenate kv.1 ++ "=" ++ kv.2 ++ "&" ++ q)
        ("api-key=" ++ apiKey)).data) :
    x <:+: (request_api_url endpoint apiKey params).data := by
  refine List.IsInfix.trans h ?_
  simp only [request_api_url, String.data_append]
  exact List.IsSuffix.isInfix (List.suffix_append _ _)

theorem hyphenate_no_underscore (k : String) : ('_' : Char) ∉ (hyphenate k).data := by
  intro hmem
  obtain ⟨s1, t1, heq⟩ := List.append_of_mem hmem
  have hinf : ['_'] <:+: (hyphenate k).data := ⟨s1, t1, by rw [heq]; simp⟩
  exact not_infix_replaceAll_self ['_'] ['-'] (by decide) (by decide) (by decide)
    k.data.length k.data (le_refl _) hinf

/-! ### Projection equations for `mkArticle` and `clean_text` -/

theorem clean_text_data (t : String) : (clean_text t).data = clean_chars t.data := by
  simp only [clean_text]

theorem mkArticle_title (e : Entry) (b : String) :
    (mkArticle e b).title = clean_text e.webTitle := by
  simp only [mkArticle]

theorem mkArticle_date (e : Entry) (b : String) :
    (mkArticle e b).date = e.webPublicationDate := by
  simp only [mkArticle]

theorem mkArticle_authors (e : Entry) (b : String) :
    (mkArticle e b).authors = ((e.tags.filter (fun t => t.type == "contributor")).map
      (fun t => clean_text t.webTitle)) := by
  simp only [mkArticle]

theorem mkArticle_text (e : Entry) (b : String) :
    (mkArticle e b).text = clean_text b := by
  simp only [mkArticle]

/-! ### The claims -/

/-- C1: if the upstream answers HTTP 200 with 50 article-kind records on
page 1 and 30 on page 2 (page size 50, page ceiling 20), the loop fetches
exactly pages 1 and 2 and the final accumulator has exactly 80 entries. -/
theorem C1_two_pages_eighty_articles (f : Nat → Option ApiResponse)
    (rs1 rs2 : List Entry)
    (h1 : f 1 = some ⟨200, rs1⟩) (hl1 : rs1.length = 50)
    (ha1 : ∀ e ∈ rs1, e.type = "article" ∧ e.blocksBody ≠ [])
    (h2 : f 2 = some ⟨200, rs2⟩) (hl2 : rs2.length = 30)
    (ha2 : ∀ e ∈ rs2, e.type = "article" ∧ e.blocksBody ≠ []) :
    (all_articles f 20 50).1.length = 80 ∧ (all_articles f 20 50).2 = [1, 2] := by
  have hfull1 : ∀ p, 1 ≤ p → p < 1 + 1 → fullOk f 50 p := by
    intro p hp1 hp2
    have hp : p = 1 := by omega
    subst hp
    exact ⟨rs1, h1, hl1, fun e he ht => (ha1 e he).2⟩
  have hsplit : List.range' 1 20 = List.range' 1 1 ++ List.range' 2 19 :=
    (List.range'_append_1 1 1 19).symm
  have hrange2 : List.range' 2 19 = 2 :: List.range' 3 18 := List.range'_succ 2 18 1
  have hfinal : all_articles f 20 50 =
      (pagesOut f 1 1 ++ rs2.filterMap extractEntry, [1, 2]) := by
    show collectPages f 50 (List.range' 1 20) [] = _
    rw [hsplit, collect_full_seg f 50 1 1 [] _ hfull1, hrange2,
      collect_short_stop f 50 2 _ _ rs2 h2 (fun e he ht => (ha2 e he).2) (by omega)]
    simp
  rw [hfinal]
  have hpo : pagesOut f 1 1 = rs1.filterMap extractEntry := by
    simp [pagesOut, resultsOf, h1]
  constructor
  · rw [List.length_append, hpo, filterMap_extract_length rs1 ha1,
      filterMap_extract_length rs2 ha2, hl1, hl2]
  · rfl

/-- Witness for C1 on a mocked upstream. -/
theorem C1_witness :
    (all_articles fetchTwoPages 20 50).1.length = 80 ∧
    (all_articles fetchTwoPages 20 50).2 = [1, 2] :=
  C1_two_pages_eighty_articles fetchTwoPages
    (List.replicate 50 testEntry) (List.replicate 30 testEntry)
    rfl (by decide) (by decide) rfl (by decide) (by decide)

/-- C2: a non-200 status on page `n`, after full clean pages `1..n-1`, makes
the loop stop right there; the run returns exactly the entries of pages
`1..n-1`, nothing from page `n`, and no exception escapes (the run is a
total function returning normally). -/
theorem C2_badstatus_returns_partial (f : Nat → Option ApiResponse) (ml pl n : Nat)
    (h1 : 1 ≤ n) (h2 : n ≤ ml)
    (hfull : ∀ p, 1 ≤ p → p < n → fullOk f pl p)
    (r : ApiResponse) (hn : f n = some r) (hst : r.status_code ≠ 200) :
    all_articles f ml pl = (pagesOut f 1 (n - 1), List.range' 1 (n - 1) ++ [n]) := by
  have hsplit : List.range' 1 ml = List.range' 1 (n - 1) ++ List.range' n (ml - n + 1) := by
    have happ := List.range'_append_1 1 (n - 1) (ml - (n - 1))
    rw [show 1 + (n - 1) = n from by omega,
      show ml - (n - 1) + (n - 1) = ml from by omega,
      show ml - (n - 1) = ml - n + 1 from by omega] at happ
    exact happ.symm
  have hrn : List.range' n (ml - n + 1) = n :: List.range' (n + 1) (ml - n) :=
    List.range'_succ n (ml - n) 1
  have hfull' : ∀ p, 1 ≤ p → p < 1 + (n - 1) → fullOk f pl p := by
    intro p hp1 hp2
    exact hfull p hp1 (by omega)
  show collectPages f pl (List.range' 1 ml) [] = _
  rw [hsplit, collect_full_seg f pl (n - 1) 1 [] _ hfull', hrn,
    collect_badstatus f pl n _ _ r hn hst]
  simp

/-- Witness for C2: one full page of size 1, then a 500 status on page 2. -/
theorem C2_witness :
    all_articles fetchThenError 20 1 = (pagesOut fetchThenError 1 1, [1, 2]) := by
  have h := C2_badstatus_returns_partial fetchThenError 20 1 2 (by omega) (by omega)
    (by
      intro p hp1 hp2
      have hp : p = 1 := by omega
      subst hp
      exact ⟨[testEntry], rfl, rfl, by decide⟩)
    ⟨500, []⟩ rfl (by decide)
  exact h

/-- C3: whenever a fetched page answers 200 with fewer results than the
requested page size (counted before the article filter) and its entries
process without fault, the loop appends that page's extracted entries and
stops; no later page is fetched, whatever pages were still pending. -/
theorem C3_short_page_stops (f : Nat → Option ApiResponse) (pl p : Nat) (rest : List Nat)
    (acc : List CollectedArticle) (rs : List Entry)
    (hf : f p = some ⟨200, rs⟩) (hok : ∀ e ∈ rs, entryOk e) (hshort : rs.length < pl) :
    collectPages f pl (p :: rest) acc = (acc ++ rs.filterMap extractEntry, [p]) :=
  collect_short_stop f pl p rest acc rs hf hok hshort

/-- Witness for C3: a 2-record page against page size 50 stops the loop. -/
theorem C3_witness :
    collectPages fetchShortPage 50 (1 :: [2, 3]) [] =
      ([] ++ [liveEntry, testEntry].filterMap extractEntry, [1]) :=
  C3_short_page_stops fetchShortPage 50 1 [2, 3] [] [liveEntry, testEntry]
    rfl (by decide) (by decide)

/-- C4: no title or text of a collected article contains any of the seven
mis-decoded sequences of the repair table. -/
theorem C4_output_clean (f : Nat → Option ApiResponse) (ml pl : Nat) (a : CollectedArticle)
    (ha : a ∈ (all_articles f ml pl).1) :
    ∀ pr ∈ repairTable, ¬ pr.1.data <:+: a.title.data ∧ ¬ pr.1.data <:+: a.text.data := by
  intro pr hpr
  rcases mem_collectPages (List.range' 1 ml) f pl [] a ha with hmem | ⟨e, b, ht, hb, heq⟩
  · exact absurd hmem (List.not_mem_nil a)
  · subst heq
    rw [mkArticle_title, mkArticle_text, clean_text_data, clean_text_data]
    exact ⟨clean_chars_avoids pr hpr e.webTitle.data, clean_chars_avoids pr hpr b.data⟩

/-- Witness for C4: the en-dash artifact is absent from the title and text
of the article collected from the mocked short page. -/
theorem C4_witness :
    ¬ ("\u00e2\u20ac\u201c" : String).data <:+:
        (mkArticle testEntry "Body â€“ text").title.data ∧
    ¬ ("\u00e2\u20ac\u201c" : String).data <:+:
        (mkArticle testEntry "Body â€“ text").text.data :=
  C4_output_clean fetchShortPage 20 50 (mkArticle testEntry "Body â€“ text")
    (by decide) ("\u00e2\u20ac\u201c", "-") (by decide)

/-- C5: applying the seven substitutions of the repair table in any order
gives the same result as the fixed source order: the passes pairwise
commute because the patterns cannot overlap. -/
theorem C5_order_irrelevant (tbl : List (String × String)) (hperm : tbl.Perm repairTable)
    (s : List Char) : tbl.foldl cleanStep s = clean_chars s := by
  refine List.Perm.foldl_eq' hperm ?_ s
  intro x hx y hy z
  have hx' : x ∈ repairTable := hperm.subset hx
  have hy' : y ∈ repairTable := hperm.subset hy
  simp only [repairTable, List.mem_cons, List.not_mem_nil, or_false] at hx' hy'
  rcases hx' with h | h | h | h | h | h | h <;> rcases hy' with g | g | g | g | g | g | g <;>
    subst h <;> subst g <;>
    first
      | rfl
      | exact cleanStep_comm _ _ (by decide) (by decide) (by decide) (by decide)
          (by decide) (by decide) (by decide) z

/-- Witness for C5: the reversed table gives the same result on a string
with two artifacts. -/
theorem C5_witness :
    repairTable.reverse.foldl cleanStep ("xâ€™yÃ©" : String).data =
      clean_chars ("xâ€™yÃ©" : String).data :=
  C5_order_irrelevant repairTable.reverse (by decide) _

/-- C6: every collected article comes from an `article` record and its
authors list is exactly the cleaned names of the record's `contributor`
tags, in tag order. -/
theorem C6_authors_contributors (f : Nat → Option ApiResponse) (ml pl : Nat)
    (a : CollectedArticle) (ha : a ∈ (all_articles f ml pl).1) :
    ∃ e b, e.type = "article" ∧ e.blocksBody.head? = some b ∧ a = mkArticle e b ∧
      a.authors = ((e.tags.filter (fun t => t.type == "contributor")).map
        (fun t => clean_text t.webTitle)) := by
  rcases mem_collectPages (List.range' 1 ml) f pl [] a ha with hmem | ⟨e, b, ht, hb, heq⟩
  · exact absurd hmem (List.not_mem_nil a)
  · exact ⟨e, b, ht, hb, heq, by rw [heq, mkArticle_authors]⟩

/-- Witness for C6 on the article collected from the mocked short page. -/
theorem C6_witness :
    ∃ e b, e.type = "article" ∧ e.blocksBody.head? = some b ∧
      mkArticle testEntry "Body â€“ text" = mkArticle e b ∧
      (mkArticle testEntry "Body â€“ text").authors =
        ((e.tags.filter (fun t => t.type == "contributor")).map
          (fun t => clean_text t.webTitle)) :=
  C6_authors_contributors fetchShortPage 20 50 (mkArticle testEntry "Body â€“ text")
    (by decide)

/-- C7: a record whose kind is not exactly `article` is skipped before any
field extraction: deleting it from a result list leaves the entry loop's
outcome unchanged, from any accumulator and in any position. -/
theorem C7_non_article_skipped (e : Entry) (he : e.type ≠ "article")
    (pre post : List Entry) (acc : List CollectedArticle) :
    processEntries (pre ++ e :: post) acc = processEntries (pre ++ post) acc :=
  processEntries_remove e post he pre acc

/-- Witness for C7 on a liveblog record between two articles. -/
theorem C7_witness :
    processEntries ([testEntry] ++ liveEntry :: [testEntry]) [] =
      processEntries ([testEntry] ++ [testEntry]) [] :=
  C7_non_article_skipped liveEntry (by decide) [testEntry] [testEntry] []

/-- C8: every keyword parameter reaches the request URL as its name with
every underscore turned into a hyphen, paired with its stringified value;
the translated name holds no underscore; and the URL carries the api-key
parameter. -/
theorem C8_params_hyphenated (endpoint apiKey : String) (params : List (String × String))
    (kv : String × String) (hmem : kv ∈ params) :
    ((hyphenate kv.1 ++ "=" ++ kv.2 ++ "&").data <:+:
      (request_api_url endpoint apiKey params).data) ∧
    ('_' : Char) ∉ (hyphenate kv.1).data ∧
    ("api-key=" ++ apiKey).data <:+: (request_api_url endpoint apiKey params).data := by
  refine ⟨?_, hyphenate_no_underscore kv.1, ?_⟩
  · exact query_infix_url endpoint apiKey params _ (query_contains params kv hmem _)
  · exact query_infix_url endpoint apiKey params _
      (List.IsSuffix.isInfix (query_suffix params _))

/-- Witness for C8 on the `page_size` parameter. -/
theorem C8_witness :
    ((hyphenate "page_size" ++ "=" ++ "50" ++ "&").data <:+:
      (request_api_url "search" "KEY" [("page_size", "50")]).data) ∧
    ('_' : Char) ∉ (hyphenate "page_size").data ∧
    ("api-key=" ++ "KEY").data <:+: (request_api_url "search" "KEY" [("page_size", "50")]).data :=
  C8_params_hyphenated "search" "KEY" [("page_size", "50")] ("page_size", "50") (by decide)

/-- C9: when an `article` record with an empty block list faults mid-page,
the loop stops with no exception escaping, yet the entries extracted from
the earlier records of that same page stay in the returned accumulator. -/
theorem C9_midpage_fault_keeps_partial (f : Nat → Option ApiResponse) (pl n : Nat)
    (rest : List Nat) (acc : List CollectedArticle)
    (pre post : List Entry) (e : Entry)
    (hf : f n = some ⟨200, pre ++ e :: post⟩)
    (hpre : ∀ x ∈ pre, entryOk x)
    (ht : e.type = "article") (hb : e.blocksBody = []) :
    collectPages f pl (n :: rest) acc = (acc ++ pre.filterMap extractEntry, [n]) :=
  collect_fault f pl n rest acc _ ⟨200, pre ++ e :: post⟩ hf rfl
    (processEntries_fault_mid e post ht hb pre acc hpre)

/-- Witness for C9: page 1 holds an article, a faulting record, and another
article; only the first article is kept. -/
theorem C9_witness :
    collectPages fetchFaultPage 50 (1 :: [2]) [] =
      ([] ++ [testEntry].filterMap extractEntry, [1]) :=
  C9_midpage_fault_keeps_partial fetchFaultPage 50 1 [2] [] [testEntry] [testEntry] faultEntry
    rfl (by decide) (by decide) (by decide)

/-- C10: a collected article's date is the record's `webPublicationDate`
verbatim; the decoding repair is applied to title and text but never to the
date. -/
theorem C10_date_untouched (f : Nat → Option ApiResponse) (ml pl : Nat)
    (a : CollectedArticle) (ha : a ∈ (all_articles f ml pl).1) :
    ∃ e b, e.blocksBody.head? = some b ∧ a = mkArticle e b ∧
      a.date = e.webPublicationDate ∧
      a.title = clean_text e.webTitle ∧
      a.text = clean_text b := by
  rcases mem_collectPages (List.range' 1 ml) f pl [] a ha with hmem | ⟨e, b, ht, hb, heq⟩
  · exact absurd hmem (List.not_mem_nil a)
  · exact ⟨e, b, hb, heq, by rw [heq, mkArticle_date], by rw [heq, mkArticle_title],
      by rw [heq, mkArticle_text]⟩

/-- Witness for C10 on the article collected from the mocked short page. -/
theorem C10_witness :
    ∃ e b, e.blocksBody.head? = some b ∧
      mkArticle testEntry "Body â€“ text" = mkArticle e b ∧
      (mkArticle testEntry "Body â€“ text").date = e.webPublicationDate ∧
      (mkArticle testEntry "Body â€“ text").title = clean_text e.webTitle ∧
      (mkArticle testEntry "Body â€“ text").text = clean_text b :=
  C10_date_untouched fetchShortPage 20 50 (mkArticle testEntry "Body â€“ text")
    (by decide)
